import Mathlib

/-!
Verification development for the sp-move-vm execution-and-effect engine.

The definitions below shallowly embed the engine code: the canonical
codec, the effect applier and result assembly of Mvm (mvm/src/mvm.rs),
the effect store of Dvm (dvm/src/dvm.rs), the test bank ledger
(mvm/tests/common/mock.rs) and the on-chain config fetch
(types/src/on_chain_config/mod.rs).  Machine integers are modelled as
Nat with explicit bounds where they matter; fallible code returns
Except or Option; stateful code is modelled by explicit traces of the
externally observable operations.
-/

set_option maxHeartbeats 1000000

namespace SpMoveVm

abbrev Byte := Nat
abbrev Blob := List Byte

/-! ## Canonical codec

Modelled from the spec: the bcs crate implementation is not under src/
(only its test helper assert_canonical_encode_decode is), so the
Canonical Codec is modelled from the words of the spec: a
deterministic, non-self-describing binary encoding supporting
fixed-width integers, ordered sequences (length-prefixed), optional
values (0/1 tag), nested records and tagged unions
(discriminant-prefixed variants); decode returns an error, never
aborts, on truncated input, trailing bytes, or an out-of-range
discriminant. -/

inductive DErr where
  | truncated
  | badTag
  | badDiscriminant
  | trailingBytes
deriving DecidableEq

/-- Variable-length (ULEB128-style) encoding of an unsigned integer,
used for sequence lengths and variant discriminants. -/
def ulebEncode (n : Nat) : List Nat :=
  if h : n < 128 then [n]
  else (n % 128 + 128) :: ulebEncode (n / 128)
termination_by n
decreasing_by
  exact Nat.div_lt_self (by omega) (by omega)

def ulebDecode : List Nat → Except DErr (Nat × List Nat)
  | [] => .error .truncated
  | b :: r =>
    if b < 128 then .ok (b, r)
    else
      match ulebDecode r with
      | .ok (m, r2) => .ok ((b - 128) + 128 * m, r2)
      | .error e => .error e

theorem ulebDecode_encode (n : Nat) : ∀ t, ulebDecode (ulebEncode n ++ t) = .ok (n, t) := by
  induction n using Nat.strong_induction_on with
  | _ n ih =>
    intro t
    by_cases h : n < 128
    · rw [ulebEncode]
      simp [h, ulebDecode]
    · rw [ulebEncode]
      simp only [h, dite_false, List.cons_append]
      rw [ulebDecode]
      have hb : ¬ (n % 128 + 128 < 128) := by omega
      rw [if_neg hb, ih (n / 128) (Nat.div_lt_self (by omega) (by omega)) t]
      simp only [Except.ok.injEq, Prod.mk.injEq]
      refine ⟨?_, trivial⟩
      have := Nat.mod_add_div n 128
      omega

theorem ulebDecode_extend : ∀ (bs : List Nat) (n : Nat) (r : List Nat),
    ulebDecode bs = .ok (n, r) →
    ∃ c, bs = c ++ r ∧ ∀ t, ulebDecode (c ++ t) = .ok (n, t) := by
  intro bs
  induction bs with
  | nil => intro n r h; simp [ulebDecode] at h
  | cons b rest ih =>
    intro n r h
    rw [ulebDecode] at h
    by_cases hb : b < 128
    · rw [if_pos hb] at h
      simp only [Except.ok.injEq, Prod.mk.injEq] at h
      obtain ⟨h1, h2⟩ := h
      subst h1; subst h2
      exact ⟨[b], rfl, fun t => by simp [ulebDecode, hb]⟩
    · rw [if_neg hb] at h
      cases hrec : ulebDecode rest with
      | error e => rw [hrec] at h; exact absurd h (by simp)
      | ok p =>
        obtain ⟨m, r2⟩ := p
        rw [hrec] at h
        simp only [Except.ok.injEq, Prod.mk.injEq] at h
        obtain ⟨h1, h2⟩ := h
        subst h1; subst h2
        obtain ⟨c, hc, hext⟩ := ih m r2 hrec
        refine ⟨b :: c, by rw [List.cons_append, hc], fun t => ?_⟩
        rw [List.cons_append, ulebDecode, if_neg hb, hext t]

/-- Little-endian fixed-width encoding of an unsigned integer into k bytes. -/
def natToLE : Nat → Nat → List Nat
  | 0, _ => []
  | k+1, n => n % 256 :: natToLE k (n / 256)

def leToNat : List Nat → Nat
  | [] => 0
  | b :: r => b + 256 * leToNat r

theorem natToLE_length : ∀ (k n : Nat), (natToLE k n).length = k := by
  intro k
  induction k with
  | zero => intro n; rfl
  | succ k ih => intro n; simp [natToLE, ih]

theorem leToNat_natToLE : ∀ (k n : Nat), n < 256 ^ k → leToNat (natToLE k n) = n := by
  intro k
  induction k with
  | zero => intro n h; simp [Nat.pow_zero] at h; simp [natToLE, leToNat, h]
  | succ k ih =>
    intro n h
    have hdiv : n / 256 < 256 ^ k := by
      rw [Nat.div_lt_iff_lt_mul (by omega)]
      calc n < 256 ^ (k + 1) := h
        _ = 256 ^ k * 256 := by rw [Nat.pow_succ]
    simp only [natToLE, leToNat, ih (n / 256) hdiv]
    omega

/-- Reads exactly k bytes from the input, failing on truncation. -/
def takeN : Nat → List Nat → Except DErr (List Nat × List Nat)
  | 0, bs => .ok ([], bs)
  | _+1, [] => .error .truncated
  | k+1, b :: bs =>
    match takeN k bs with
    | .ok (c, r) => .ok (b :: c, r)
    | .error e => .error e

theorem takeN_append : ∀ (c t : List Nat), takeN c.length (c ++ t) = .ok (c, t) := by
  intro c
  induction c with
  | nil => intro t; rfl
  | cons b bs ih => intro t; simp [takeN, ih]

theorem takeN_extend : ∀ (k : Nat) (bs c r : List Nat),
    takeN k bs = .ok (c, r) →
    bs = c ++ r ∧ c.length = k ∧ ∀ t, takeN k (c ++ t) = .ok (c, t) := by
  intro k
  induction k with
  | zero =>
    intro bs c r h
    simp only [takeN, Except.ok.injEq, Prod.mk.injEq] at h
    obtain ⟨h1, h2⟩ := h
    subst h1; subst h2
    exact ⟨rfl, rfl, fun t => rfl⟩
  | succ k ih =>
    intro bs c r h
    cases bs with
    | nil => simp [takeN] at h
    | cons b rest =>
      rw [takeN] at h
      cases hrec : takeN k rest with
      | error e => rw [hrec] at h; exact absurd h (by simp)
      | ok p =>
        obtain ⟨c2, r2⟩ := p
        rw [hrec] at h
        simp only [Except.ok.injEq, Prod.mk.injEq] at h
        obtain ⟨h1, h2⟩ := h
        subst h1; subst h2
        obtain ⟨heq, hlen, hext⟩ := ih rest c2 r2 hrec
        refine ⟨by rw [List.cons_append, heq], by simp [hlen], fun t => ?_⟩
        rw [List.cons_append, takeN, hext t]

/-- Target shapes (layouts) the codec can decode into; the codec is
not self-describing, so decode takes the shape as an argument. -/
inductive Shape where
  | u8
  | u64
  | seqS (elem : Shape)
  | optS (elem : Shape)
  | recordS (fields : List Shape)
  | taggedS (variants : List Shape)

/-- Logical values of the supported shapes. -/
inductive Value where
  | u8 (n : Nat)
  | u64 (n : Nat)
  | seqV (elems : List Value)
  | noneV
  | someV (v : Value)
  | recordV (fields : List Value)
  | variantV (idx : Nat) (v : Value)

mutual

/-- A value matches a shape (the layout can encode the value). -/
def wellShaped : Shape → Value → Bool
  | .u8, .u8 n => n < 256
  | .u64, .u64 n => n < 2 ^ 64
  | .seqS s, .seqV vs => wellShapedSeq s vs
  | .optS _, .noneV => true
  | .optS s, .someV v => wellShaped s v
  | .recordS ss, .recordV vs => wellShapedFields ss vs
  | .taggedS ss, .variantV i v => wellShapedVariant ss i v
  | _, _ => false

def wellShapedSeq (s : Shape) : List Value → Bool
  | [] => true
  | v :: vs => wellShaped s v && wellShapedSeq s vs

def wellShapedFields : List Shape → List Value → Bool
  | [], [] => true
  | s :: ss, v :: vs => wellShaped s v && wellShapedFields ss vs
  | _, _ => false

def wellShapedVariant : List Shape → Nat → Value → Bool
  | [], _, _ => false
  | s :: _, 0, v => wellShaped s v
  | _ :: ss, i+1, v => wellShapedVariant ss i v

end

mutual

/-- Canonical encoding of a value into bytes. -/
def encodeValue : Value → List Nat
  | .u8 n => [n]
  | .u64 n => natToLE 8 n
  | .seqV vs => ulebEncode vs.length ++ encodeSeq vs
  | .noneV => [0]
  | .someV v => 1 :: encodeValue v
  | .recordV vs => encodeSeq vs
  | .variantV i v => ulebEncode i ++ encodeValue v

def encodeSeq : List Value → List Nat
  | [] => []
  | v :: vs => encodeValue v ++ encodeSeq vs

end

mutual

/-- Decodes one value of the given shape from the front of the input,
returning the value and the unconsumed remainder; every failure is an
error value, never an abort. -/
def decodeValue : Shape → List Nat → Except DErr (Value × List Nat)
  | .u8, [] => .error .truncated
  | .u8, b :: r => .ok (.u8 b, r)
  | .u64, bs =>
    match takeN 8 bs with
    | .ok (c, r) => .ok (.u64 (leToNat c), r)
    | .error e => .error e
  | .seqS s, bs =>
    match ulebDecode bs with
    | .ok (n, r) =>
      match decodeCount s n r with
      | .ok (vs, r2) => .ok (.seqV vs, r2)
      | .error e => .error e
    | .error e => .error e
  | .optS _, [] => .error .truncated
  | .optS _, 0 :: r => .ok (.noneV, r)
  | .optS s, 1 :: r =>
    match decodeValue s r with
    | .ok (v, r2) => .ok (.someV v, r2)
    | .error e => .error e
  | .optS _, _ :: _ => .error .badTag
  | .recordS ss, bs =>
    match decodeFields ss bs with
    | .ok (vs, r) => .ok (.recordV vs, r)
    | .error e => .error e
  | .taggedS ss, bs =>
    match ulebDecode bs with
    | .ok (i, r) =>
      match decodeVariant ss i r with
      | .ok (v, r2) => .ok (.variantV i v, r2)
      | .error e => .error e
    | .error e => .error e

def decodeCount (s : Shape) : Nat → List Nat → Except DErr (List Value × List Nat)
  | 0, bs => .ok ([], bs)
  | n+1, bs =>
    match decodeValue s bs with
    | .ok (v, r) =>
      match decodeCount s n r with
      | .ok (vs, r2) => .ok (v :: vs, r2)
      | .error e => .error e
    | .error e => .error e

def decodeFields : List Shape → List Nat → Except DErr (List Value × List Nat)
  | [], bs => .ok ([], bs)
  | s :: ss, bs =>
    match decodeValue s bs with
    | .ok (v, r) =>
      match decodeFields ss r with
      | .ok (vs, r2) => .ok (v :: vs, r2)
      | .error e => .error e
    | .error e => .error e

def decodeVariant : List Shape → Nat → List Nat → Except DErr (Value × List Nat)
  | [], _, _ => .error .badDiscriminant
  | s :: _, 0, bs => decodeValue s bs
  | _ :: ss, i+1, bs => decodeVariant ss i bs

end

/-- Top-level decode: decodes one value of the shape and rejects any
trailing bytes, as the crate-level from_bytes does. -/
def fromBytes (s : Shape) (bs : List Nat) : Except DErr Value :=
  match decodeValue s bs with
  | .ok (v, []) => .ok v
  | .ok (_, _ :: _) => .error .trailingBytes
  | .error e => .error e

mutual

theorem decodeValue_encode (s : Shape) (v : Value) (hv : wellShaped s v = true)
    (t : List Nat) : decodeValue s (encodeValue v ++ t) = .ok (v, t) := by
  cases s with
  | u8 =>
    cases v <;> simp [wellShaped] at hv
    case u8 n => simp [encodeValue, decodeValue]
  | u64 =>
    cases v <;> simp [wellShaped] at hv
    case u64 n =>
      rw [encodeValue, decodeValue]
      have h8 : (natToLE 8 n).length = 8 := natToLE_length 8 n
      have htk := takeN_append (natToLE 8 n) t
      rw [h8] at htk
      have hle := leToNat_natToLE 8 n (by norm_num at hv ⊢; omega)
      simp [htk, hle]
  | seqS s =>
    cases v <;> simp [wellShaped] at hv
    case seqV vs =>
      have hc := decodeCount_encodeSeq s vs hv t
      rw [encodeValue, decodeValue, List.append_assoc,
        ulebDecode_encode vs.length (encodeSeq vs ++ t)]
      simp [hc]
  | optS s =>
    cases v <;> simp [wellShaped] at hv
    case noneV => simp [encodeValue, decodeValue]
    case someV v =>
      have hd := decodeValue_encode s v hv t
      rw [encodeValue, List.cons_append, decodeValue]
      simp [hd]
  | recordS ss =>
    cases v <;> simp [wellShaped] at hv
    case recordV vs =>
      have hf := decodeFields_encodeSeq ss vs hv t
      rw [encodeValue, decodeValue]
      simp [hf]
  | taggedS ss =>
    cases v <;> simp [wellShaped] at hv
    case variantV i v =>
      have hvr := decodeVariant_encode ss i v hv t
      rw [encodeValue, decodeValue, List.append_assoc,
        ulebDecode_encode i (encodeValue v ++ t)]
      simp [hvr]

theorem decodeCount_encodeSeq (s : Shape) (vs : List Value)
    (hv : wellShapedSeq s vs = true) (t : List Nat) :
    decodeCount s vs.length (encodeSeq vs ++ t) = .ok (vs, t) := by
  cases vs with
  | nil => simp [encodeSeq, decodeCount]
  | cons v rest =>
    rw [wellShapedSeq] at hv
    simp only [Bool.and_eq_true] at hv
    obtain ⟨hv1, hv2⟩ := hv
    have hd := decodeValue_encode s v hv1 (encodeSeq rest ++ t)
    have hc := decodeCount_encodeSeq s rest hv2 t
    rw [List.length_cons, encodeSeq, List.append_assoc, decodeCount]
    simp [hd, hc]

theorem decodeFields_encodeSeq (ss : List Shape) (vs : List Value)
    (hv : wellShapedFields ss vs = true) (t : List Nat) :
    decodeFields ss (encodeSeq vs ++ t) = .ok (vs, t) := by
  cases ss with
  | nil =>
    cases vs with
    | nil => simp [encodeSeq, decodeFields]
    | cons v rest => simp [wellShapedFields] at hv
  | cons s ss2 =>
    cases vs with
    | nil => simp [wellShapedFields] at hv
    | cons v rest =>
      rw [wellShapedFields] at hv
      simp only [Bool.and_eq_true] at hv
      obtain ⟨hv1, hv2⟩ := hv
      have hd := decodeValue_encode s v hv1 (encodeSeq rest ++ t)
      have hf := decodeFields_encodeSeq ss2 rest hv2 t
      rw [encodeSeq, List.append_assoc, decodeFields]
      simp [hd, hf]

theorem decodeVariant_encode (ss : List Shape) (i : Nat) (v : Value)
    (hv : wellShapedVariant ss i v = true) (t : List Nat) :
    decodeVariant ss i (encodeValue v ++ t) = .ok (v, t) := by
  cases ss with
  | nil => simp [wellShapedVariant] at hv
  | cons s ss2 =>
    cases i with
    | zero =>
      rw [decodeVariant]
      exact decodeValue_encode s v (by rw [wellShapedVariant] at hv; exact hv) t
    | succ j =>
      rw [decodeVariant]
      exact decodeVariant_encode ss2 j v (by rw [wellShapedVariant] at hv; exact hv) t

end

mutual

theorem decodeValue_extend (s : Shape) (bs : List Nat) (v : Value) (r : List Nat)
    (h : decodeValue s bs = .ok (v, r)) :
    ∃ c, bs = c ++ r ∧ ∀ t, decodeValue s (c ++ t) = .ok (v, t) := by
  cases s with
  | u8 =>
    cases bs with
    | nil => rw [decodeValue] at h; exact absurd h (by simp)
    | cons b bs2 =>
      rw [decodeValue] at h
      simp only [Except.ok.injEq, Prod.mk.injEq] at h
      obtain ⟨h1, h2⟩ := h
      subst h1; subst h2
      exact ⟨[b], rfl, fun t => by simp [decodeValue]⟩
  | u64 =>
    rw [decodeValue] at h
    split at h
    · rename_i p c0 r0 htk
      simp only [Except.ok.injEq, Prod.mk.injEq] at h
      obtain ⟨h1, h2⟩ := h
      subst h1; subst h2
      obtain ⟨heq, hlen, hext⟩ := takeN_extend 8 bs c0 r0 htk
      refine ⟨c0, heq, fun t => ?_⟩
      rw [decodeValue, hext t]
    · exact absurd h (by simp)
  | seqS s =>
    rw [decodeValue] at h
    split at h
    · rename_i p n r1 hu
      split at h
      · rename_i q vs r2 hc
        simp only [Except.ok.injEq, Prod.mk.injEq] at h
        obtain ⟨h1, h2⟩ := h
        subst h1; subst h2
        obtain ⟨c1, hc1, hext1⟩ := ulebDecode_extend bs n r1 hu
        obtain ⟨c2, hc2, hext2⟩ := decodeCount_extend s n r1 vs r2 hc
        refine ⟨c1 ++ c2, by rw [hc1, hc2, List.append_assoc], fun t => ?_⟩
        have hx1 := hext1 (c2 ++ t)
        have hx2 := hext2 t
        rw [decodeValue, List.append_assoc, hx1]
        simp [hx2]
      · exact absurd h (by simp)
    · exact absurd h (by simp)
  | optS s =>
    cases bs with
    | nil => rw [decodeValue] at h; exact absurd h (by simp)
    | cons b bs2 =>
      rcases b with _ | (_ | n)
      · rw [decodeValue] at h
        simp only [Except.ok.injEq, Prod.mk.injEq] at h
        obtain ⟨h1, h2⟩ := h
        subst h1; subst h2
        exact ⟨[0], rfl, fun t => by simp [decodeValue]⟩
      · rw [decodeValue] at h
        split at h
        · rename_i p v0 r2 hd
          simp only [Except.ok.injEq, Prod.mk.injEq] at h
          obtain ⟨h1, h2⟩ := h
          subst h1; subst h2
          obtain ⟨c0, hc0, hext⟩ := decodeValue_extend s bs2 v0 r2 hd
          refine ⟨1 :: c0, by rw [List.cons_append, hc0], fun t => ?_⟩
          have hx := hext t
          rw [List.cons_append, decodeValue]
          simp [hx]
        · exact absurd h (by simp)
      · rw [decodeValue] at h
        · exact absurd h (by simp)
        · omega
        · omega
  | recordS ss =>
    rw [decodeValue] at h
    split at h
    · rename_i p vs r2 hf
      simp only [Except.ok.injEq, Prod.mk.injEq] at h
      obtain ⟨h1, h2⟩ := h
      subst h1; subst h2
      obtain ⟨c0, hc0, hext⟩ := decodeFields_extend ss bs vs r2 hf
      refine ⟨c0, hc0, fun t => ?_⟩
      have hx := hext t
      rw [decodeValue]
      simp [hx]
    · exact absurd h (by simp)
  | taggedS ss =>
    rw [decodeValue] at h
    split at h
    · rename_i p i r1 hu
      split at h
      · rename_i q v0 r2 hd
        simp only [Except.ok.injEq, Prod.mk.injEq] at h
        obtain ⟨h1, h2⟩ := h
        subst h1; subst h2
        obtain ⟨c1, hc1, hext1⟩ := ulebDecode_extend bs i r1 hu
        obtain ⟨c2, hc2, hext2⟩ := decodeVariant_extend ss i r1 v0 r2 hd
        refine ⟨c1 ++ c2, by rw [hc1, hc2, List.append_assoc], fun t => ?_⟩
        have hx1 := hext1 (c2 ++ t)
        have hx2 := hext2 t
        rw [decodeValue, List.append_assoc, hx1]
        simp [hx2]
      · exact absurd h (by simp)
    · exact absurd h (by simp)

theorem decodeCount_extend (s : Shape) (n : Nat) (bs : List Nat) (vs : List Value)
    (r : List Nat) (h : decodeCount s n bs = .ok (vs, r)) :
    ∃ c, bs = c ++ r ∧ ∀ t, decodeCount s n (c ++ t) = .ok (vs, t) := by
  cases n with
  | zero =>
    rw [decodeCount] at h
    simp only [Except.ok.injEq, Prod.mk.injEq] at h
    obtain ⟨h1, h2⟩ := h
    subst h1; subst h2
    exact ⟨[], rfl, fun t => by rw [List.nil_append, decodeCount]⟩
  | succ m =>
    rw [decodeCount] at h
    split at h
    · rename_i p v0 r1 hd
      split at h
      · rename_i q vs2 r2 hc
        simp only [Except.ok.injEq, Prod.mk.injEq] at h
        obtain ⟨h1, h2⟩ := h
        subst h1; subst h2
        obtain ⟨c1, hc1, hext1⟩ := decodeValue_extend s bs v0 r1 hd
        obtain ⟨c2, hc2, hext2⟩ := decodeCount_extend s m r1 vs2 r2 hc
        refine ⟨c1 ++ c2, by rw [hc1, hc2, List.append_assoc], fun t => ?_⟩
        have hx1 := hext1 (c2 ++ t)
        have hx2 := hext2 t
        rw [decodeCount, List.append_assoc, hx1]
        simp [hx2]
      · exact absurd h (by simp)
    · exact absurd h (by simp)

theorem decodeFields_extend (ss : List Shape) (bs : List Nat) (vs : List Value)
    (r : List Nat) (h : decodeFields ss bs = .ok (vs, r)) :
    ∃ c, bs = c ++ r ∧ ∀ t, decodeFields ss (c ++ t) = .ok (vs, t) := by
  cases ss with
  | nil =>
    rw [decodeFields] at h
    simp only [Except.ok.injEq, Prod.mk.injEq] at h
    obtain ⟨h1, h2⟩ := h
    subst h1; subst h2
    exact ⟨[], rfl, fun t => by rw [List.nil_append, decodeFields]⟩
  | cons s ss2 =>
    rw [decodeFields] at h
    split at h
    · rename_i p v0 r1 hd
      split at h
      · rename_i q vs2 r2 hf
        simp only [Except.ok.injEq, Prod.mk.injEq] at h
        obtain ⟨h1, h2⟩ := h
        subst h1; subst h2
        obtain ⟨c1, hc1, hext1⟩ := decodeValue_extend s bs v0 r1 hd
        obtain ⟨c2, hc2, hext2⟩ := decodeFields_extend ss2 r1 vs2 r2 hf
        refine ⟨c1 ++ c2, by rw [hc1, hc2, List.append_assoc], fun t => ?_⟩
        have hx1 := hext1 (c2 ++ t)
        have hx2 := hext2 t
        rw [decodeFields, List.append_assoc, hx1]
        simp [hx2]
      · exact absurd h (by simp)
    · exact absurd h (by simp)

theorem decodeVariant_extend (ss : List Shape) (i : Nat) (bs : List Nat) (v : Value)
    (r : List Nat) (h : decodeVariant ss i bs = .ok (v, r)) :
    ∃ c, bs = c ++ r ∧ ∀ t, decodeVariant ss i (c ++ t) = .ok (v, t) := by
  cases ss with
  | nil => rw [decodeVariant] at h; exact absurd h (by simp)
  | cons s ss2 =>
    cases i with
    | zero =>
      rw [decodeVariant] at h
      obtain ⟨c0, hc0, hext⟩ := decodeValue_extend s bs v r h
      exact ⟨c0, hc0, fun t => by rw [decodeVariant, hext t]⟩
    | succ j =>
      rw [decodeVariant] at h
      obtain ⟨c0, hc0, hext⟩ := decodeVariant_extend ss2 j bs v r h
      exact ⟨c0, hc0, fun t => by rw [decodeVariant, hext t]⟩

end

theorem decodeVariant_out_of_range : ∀ (ss : List Shape) (i : Nat) (bs : List Nat),
    ss.length ≤ i → decodeVariant ss i bs = .error .badDiscriminant := by
  intro ss
  induction ss with
  | nil => intro i bs h; rw [decodeVariant]
  | cons s ss2 ih =>
    intro i bs h
    cases i with
    | zero => simp at h
    | succ j => rw [decodeVariant]; exact ih j bs (by simpa using h)

/-- C9: for every value of a supported shape, decoding the canonical
encoding of the value yields the value back, and decode returns an
error value - never an abort, the decoder being a total function into
Except - on truncated input, on trailing bytes, and on an out-of-range
variant discriminant. -/
theorem c9_codec_roundtrip (s : Shape) (v : Value) (hv : wellShaped s v = true) :
    fromBytes s (encodeValue v) = .ok v
    ∧ (∀ k, k < (encodeValue v).length →
        ∃ e, fromBytes s ((encodeValue v).take k) = .error e)
    ∧ (∀ t, t ≠ [] → ∃ e, fromBytes s (encodeValue v ++ t) = .error e)
    ∧ (∀ (ss : List Shape) (i : Nat) (bs : List Nat), ss.length ≤ i →
        fromBytes (Shape.taggedS ss) (ulebEncode i ++ bs) = .error .badDiscriminant) := by
  have hrt : decodeValue s (encodeValue v) = .ok (v, []) := by
    have hd := decodeValue_encode s v hv []
    rwa [List.append_nil] at hd
  refine ⟨by rw [fromBytes, hrt], ?_, ?_, ?_⟩
  · intro k hk
    cases hdec : decodeValue s ((encodeValue v).take k) with
    | error e => exact ⟨e, by rw [fromBytes, hdec]⟩
    | ok p =>
      obtain ⟨w, rest⟩ := p
      cases rest with
      | cons x xs => exact ⟨.trailingBytes, by rw [fromBytes, hdec]⟩
      | nil =>
        exfalso
        obtain ⟨c, hc, hext⟩ := decodeValue_extend s _ w [] hdec
        rw [List.append_nil] at hc
        have hfull := hext ((encodeValue v).drop k)
        rw [← hc, List.take_append_drop, hrt] at hfull
        simp only [Except.ok.injEq, Prod.mk.injEq] at hfull
        have : (encodeValue v).length ≤ k := by
          have hd2 := hfull.2
          have := congrArg List.length hd2
          simp at this
          omega
        omega
  · intro t ht
    have hd := decodeValue_encode s v hv t
    cases t with
    | nil => exact absurd rfl ht
    | cons x xs => exact ⟨.trailingBytes, by rw [fromBytes, hd]⟩
  · intro ss i bs h
    have hvr := decodeVariant_out_of_range ss i bs h
    rw [fromBytes, decodeValue, ulebDecode_encode i bs]
    simp [hvr]

theorem c9_codec_roundtrip_witness :
    wellShaped (Shape.optS Shape.u8) (Value.someV (Value.u8 7)) = true
    ∧ fromBytes (Shape.optS Shape.u8) (encodeValue (Value.someV (Value.u8 7)))
        = .ok (Value.someV (Value.u8 7)) := by
  have h : wellShaped (Shape.optS Shape.u8) (Value.someV (Value.u8 7)) = true := by
    simp [wellShaped]
  exact ⟨h, (c9_codec_roundtrip (Shape.optS Shape.u8) (Value.someV (Value.u8 7)) h).1⟩

/-! ## Core VM data model

Types from mvm/src/types.rs, vm/errors and move-core-types that the
engine code in src/ uses.  Status codes are symbolic; the account
address and the access vectors of struct tags and module ids are kept
as uninterpreted byte strings (the spec makes them canonical encodings of the
descriptors). -/

abbrev AccountAddress := Blob

/-- A struct tag, reduced to the canonical access vector the engine
reads from it via access_vector(). -/
structure StructTag where
  accessVector : Blob
deriving DecidableEq

/-- A module id, reduced to the address and the canonical access
vector the engine reads from it. -/
structure ModuleId where
  address : AccountAddress
  accessVector : Blob
deriving DecidableEq

/-- AccessPath is a pair of an account identifier and path bytes, as
built by AccessPath::new(address, path). -/
structure AccessPath where
  address : AccountAddress
  path : Blob
deriving DecidableEq

abbrev TypeTag := Blob

inductive StatusCode where
  | EXECUTED
  | OUT_OF_GAS
  | MODULE_ADDRESS_DOES_NOT_MATCH_SENDER
  | UNKNOWN_INVARIANT_VIOLATION_ERROR
  | other (code : Nat)
deriving DecidableEq

inductive VMLocation where
  | undefined
  | module (id : ModuleId)
deriving DecidableEq

/-- A VMError: major status, optional sub-status and the location it
was finished at. -/
structure VMErr where
  major : StatusCode
  subStatus : Option Nat
  location : VMLocation
deriving DecidableEq

/-- The VmResult the engine returns: status code, optional sub-status
and gas used. -/
structure VmResult where
  statusCode : StatusCode
  subStatus : Option Nat
  gasUsed : Nat
deriving DecidableEq

structure Gas where
  maxGasAmount : Nat
deriving DecidableEq

abbrev Ticker := String

/-- A wallet id names an account and currency entry of the bank. -/
abbrev WalletId := AccountAddress × Ticker

inductive BalanceOperation where
  | deposit (amount : Nat)
  | withdraw (amount : Nat)
deriving DecidableEq

/-- Modelled from the spec: TransactionEffects is produced by
move-vm-runtime (not under src/); the spec describes it as a mapping
address to mapping type-descriptor to optional (layout, value) for
resources, a mapping module id to blob for modules, an ordered event
sequence and an ordered balance-operation sequence.  The mappings are
association lists; the canonical-byte-sorted traversal the spec
requires of them is stated as an explicit hypothesis where a claim
needs it. -/
structure TransactionEffects where
  resources : List (AccountAddress × List (StructTag × Option (Shape × Value)))
  modules : List (ModuleId × Blob)
  events : List (AccountAddress × TypeTag × Shape × Value × Option ModuleId)
  wallet_ops : List (WalletId × BalanceOperation)

/-- Modelled from the spec: Value::simple_serialize(layout) from
move-vm-types (not under src/) encodes the value under its layout via
the Canonical Codec and fails exactly when the layout cannot encode
the value. -/
def simpleSerialize (v : Value) (layout : Shape) : Option Blob :=
  if wellShaped layout v then some (encodeValue v) else none

/-- The fatal error built at both serialization-failure points of
handle_tx_effects: PartialVMError::new(UNKNOWN_INVARIANT_VIOLATION_ERROR)
finished at Location::Undefined. -/
def serializationErr : VMErr :=
  { major := .UNKNOWN_INVARIANT_VIOLATION_ERROR, subStatus := none, location := .undefined }

/-- One externally observable operation performed while applying
effects: a storage mutation, an EventHandler call, or a Bank call. -/
inductive Action where
  | insert (key : AccessPath) (value : Blob)
  | delete (key : AccessPath)
  | event (address : AccountAddress) (tyTag : TypeTag) (message : Blob)
      (caller : Option ModuleId)
  | bankDeposit (id : WalletId) (amount : Nat)
  | bankWithdraw (id : WalletId) (amount : Nat)
deriving DecidableEq

def Action.isStorage : Action → Bool
  | .insert _ _ => true
  | .delete _ => true
  | _ => false

def Action.isBank : Action → Bool
  | .bankDeposit _ _ => true
  | .bankWithdraw _ _ => true
  | _ => false

/-! ## Mvm effect applier (mvm/src/mvm.rs, handle_tx_effects)

The imperative loops are modelled as functions returning the list of
operations performed, in order, together with the error that aborted
the loop, if any; operations performed before the abort stay in the
list, matching the code, which mutates storage as it goes and never
rolls back. -/

/-- Inner loop over the values of one address of the resource phase. -/
def applyResourceVals (addr : AccountAddress) :
    List (StructTag × Option (Shape × Value)) → List Action × Option VMErr
  | [] => ([], none)
  | (tag, none) :: rest =>
    let p := applyResourceVals addr rest
    (Action.delete (AccessPath.mk addr tag.accessVector) :: p.1, p.2)
  | (tag, some (layout, v)) :: rest =>
    match simpleSerialize v layout with
    | none => ([], some serializationErr)
    | some blob =>
      let p := applyResourceVals addr rest
      (Action.insert (AccessPath.mk addr tag.accessVector) blob :: p.1, p.2)

/-- Outer loop of the resource phase of handle_tx_effects. -/
def applyResources :
    List (AccountAddress × List (StructTag × Option (Shape × Value))) →
    List Action × Option VMErr
  | [] => ([], none)
  | (addr, vals) :: rest =>
    let p := applyResourceVals addr vals
    match p.2 with
    | some e => (p.1, some e)
    | none =>
      let q := applyResources rest
      (p.1 ++ q.1, q.2)

/-- Module phase of handle_tx_effects: unconditional inserts. -/
def applyModules (ms : List (ModuleId × Blob)) : List Action :=
  ms.map (fun m => Action.insert (AccessPath.mk m.1.address m.1.accessVector) m.2)

/-- Event phase of handle_tx_effects: serialize each payload and call
the EventHandler in emission order. -/
def applyEvents :
    List (AccountAddress × TypeTag × Shape × Value × Option ModuleId) →
    List Action × Option VMErr
  | [] => ([], none)
  | (addr, tyTag, layout, v, caller) :: rest =>
    match simpleSerialize v layout with
    | none => ([], some serializationErr)
    | some msg =>
      let p := applyEvents rest
      (Action.event addr tyTag msg caller :: p.1, p.2)

/-- Balance phase of handle_tx_effects: dispatch each wallet operation
to the bank in original order. -/
def applyWalletOps (ops : List (WalletId × BalanceOperation)) : List Action :=
  ops.map (fun p => match p.2 with
    | .deposit a => Action.bankDeposit p.1 a
    | .withdraw a => Action.bankWithdraw p.1 a)

/-- Mvm::handle_tx_effects: the four phases in order - resources,
modules, events, balance operations - stopping at the first
serialization failure, with all operations performed before the
failure kept. -/
def handle_tx_effects (eff : TransactionEffects) : List Action × Option VMErr :=
  let r := applyResources eff.resources
  match r.2 with
  | some e => (r.1, some e)
  | none =>
    let m := applyModules eff.modules
    let ev := applyEvents eff.events
    match ev.2 with
    | some e => (r.1 ++ m ++ ev.1, some e)
    | none => (r.1 ++ m ++ ev.1 ++ applyWalletOps eff.wallet_ops, none)

/-! ## Dvm effect store (dvm/src/dvm.rs, store_tx_effects)

Dvm performs only the resource and module phases; the loops are
translated separately from dvm.rs. -/

def dvmApplyResourceVals (addr : AccountAddress) :
    List (StructTag × Option (Shape × Value)) → List Action × Option VMErr
  | [] => ([], none)
  | (tag, none) :: rest =>
    let p := dvmApplyResourceVals addr rest
    (Action.delete (AccessPath.mk addr tag.accessVector) :: p.1, p.2)
  | (tag, some (layout, v)) :: rest =>
    match simpleSerialize v layout with
    | none => ([], some serializationErr)
    | some blob =>
      let p := dvmApplyResourceVals addr rest
      (Action.insert (AccessPath.mk addr tag.accessVector) blob :: p.1, p.2)

def dvmApplyResources :
    List (AccountAddress × List (StructTag × Option (Shape × Value))) →
    List Action × Option VMErr
  | [] => ([], none)
  | (addr, vals) :: rest =>
    let p := dvmApplyResourceVals addr vals
    match p.2 with
    | some e => (p.1, some e)
    | none =>
      let q := dvmApplyResources rest
      (p.1 ++ q.1, q.2)

def dvmApplyModules (ms : List (ModuleId × Blob)) : List Action :=
  ms.map (fun m => Action.insert (AccessPath.mk m.1.address m.1.accessVector) m.2)

/-- Dvm::store_tx_effects: the resource phase then the module phase,
stopping at the first serialization failure. -/
def store_tx_effects (eff : TransactionEffects) : List Action × Option VMErr :=
  let r := dvmApplyResources eff.resources
  match r.2 with
  | some e => (r.1, some e)
  | none => (r.1 ++ dvmApplyModules eff.modules, none)

/-! ## Result assembly and the engine operations (mvm/src/mvm.rs) -/

/-- Mvm::handle_vm_result: gas used is budget minus remaining
(GasUnits::sub, modelled from the spec as truncated subtraction since
the gas meter is monotone), computed before inspecting the result; on
Ok the effects are applied and the status is EXECUTED when that also
succeeds; on any error the major and sub status of the error pass
through unchanged. -/
def handle_vm_result (remainingGas : Nat) (gasMeta : Gas)
    (result : Except VMErr TransactionEffects) : VmResult × List Action :=
  let gasUsed := gasMeta.maxGasAmount - remainingGas
  match result with
  | .ok eff =>
    let p := handle_tx_effects eff
    match p.2 with
    | none => ({ statusCode := .EXECUTED, subStatus := none, gasUsed := gasUsed }, p.1)
    | some err =>
      ({ statusCode := err.major, subStatus := err.subStatus, gasUsed := gasUsed }, p.1)
  | .error err =>
    ({ statusCode := err.major, subStatus := err.subStatus, gasUsed := gasUsed }, [])

/-- A module publication transaction: bytecode blob and sender. -/
structure ModuleTx where
  module : Blob
  sender : AccountAddress

/-- A script transaction: blob, value arguments, type arguments and
ordered sender addresses. -/
structure ScriptTx where
  script : Blob
  args : List Blob
  typeArgs : List TypeTag
  senders : List AccountAddress

/-- Session-scoped execution context (height and timestamp). -/
structure ExecutionContext where
  timestamp : Nat
  blockHeight : Nat

/-- The part of a CompiledModule the publish path reads: its self id. -/
structure CompiledModuleHeader where
  selfId : ModuleId

/-- Modelled from the spec: CostStrategy::charge_intrinsic_gas from
move-vm-types (not under src/) deducts the intrinsic cost of the given
size before any further work and fails with OUT_OF_GAS when the
remaining budget is insufficient, in which case the remaining gas
drops to zero so that the whole budget is reported as used (spec
scenario B: gas_used equals the budget on an intrinsic out-of-gas).
The cost function is a parameter standing for the cost table. -/
def chargeIntrinsicGas (cost : Nat → Nat) (size remaining : Nat) :
    Except VMErr Unit × Nat :=
  if cost size ≤ remaining then (.ok (), remaining - cost size)
  else (.error { major := .OUT_OF_GAS, subStatus := none, location := .undefined }, 0)

/-- One step of the publish path observable from outside: an intrinsic
charge attempt (with its size and outcome), the module header
deserialization, the opening of an interpreter session, or an applied
effect operation. -/
inductive Ev where
  | chargeIntrinsic (size : Nat) (ok : Bool)
  | deserializeModule
  | newSession
  | act (a : Action)
deriving DecidableEq

/-- Mvm::publish_module: first intrinsic charge for the blob length,
then header deserialization, then the sender address check, then a
second intrinsic charge for the same length, then the interpreter
session; the result goes through handle_vm_result.  The deserializer
and the session are parameters standing for the external interpreter
capability; the session returns its result together with the gas left
in the cost strategy. -/
def publish_module (cost : Nat → Nat)
    (deserialize : Blob → Except VMErr CompiledModuleHeader)
    (sessionPublish : Blob → AccountAddress → Nat →
      Except VMErr TransactionEffects × Nat)
    (gas : Gas) (tx : ModuleTx) : VmResult × List Ev :=
  let g0 := gas.maxGasAmount
  match chargeIntrinsicGas cost tx.module.length g0 with
  | (.error e, g1) =>
    let p := handle_vm_result g1 gas (.error e)
    (p.1, [Ev.chargeIntrinsic tx.module.length false] ++ p.2.map Ev.act)
  | (.ok _, g1) =>
    match deserialize tx.module with
    | .error e =>
      let p := handle_vm_result g1 gas (.error e)
      (p.1, [Ev.chargeIntrinsic tx.module.length true, Ev.deserializeModule]
        ++ p.2.map Ev.act)
    | .ok cm =>
      if tx.sender ≠ cm.selfId.address then
        let e : VMErr := { major := .MODULE_ADDRESS_DOES_NOT_MATCH_SENDER,
                           subStatus := none, location := .module cm.selfId }
        let p := handle_vm_result g1 gas (.error e)
        (p.1, [Ev.chargeIntrinsic tx.module.length true, Ev.deserializeModule]
          ++ p.2.map Ev.act)
      else
        match chargeIntrinsicGas cost tx.module.length g1 with
        | (.error e, g2) =>
          let p := handle_vm_result g2 gas (.error e)
          (p.1, [Ev.chargeIntrinsic tx.module.length true, Ev.deserializeModule,
                 Ev.chargeIntrinsic tx.module.length false] ++ p.2.map Ev.act)
        | (.ok _, g2) =>
          let sr := sessionPublish tx.module tx.sender g2
          let p := handle_vm_result sr.2 gas sr.1
          (p.1, [Ev.chargeIntrinsic tx.module.length true, Ev.deserializeModule,
                 Ev.chargeIntrinsic tx.module.length true, Ev.newSession]
            ++ p.2.map Ev.act)

/-- Mvm::execute_script: open a session over the state overlaid with
the execution context, run the script under the gas meter, and hand
the result to handle_vm_result. -/
def execute_script
    (sessionExecute : ScriptTx → ExecutionContext → Nat →
      Except VMErr TransactionEffects × Nat)
    (gas : Gas) (context : ExecutionContext) (tx : ScriptTx) : VmResult × List Ev :=
  let sr := sessionExecute tx context gas.maxGasAmount
  let p := handle_vm_result sr.2 gas sr.1
  (p.1, [Ev.newSession] ++ p.2.map Ev.act)

/-! ## Bank ledger (mvm/tests/common/mock.rs, BankMock)

Balances are keyed by (address, ticker).  They are modelled as Int so
that the no-negative-balance invariant is a statement, not a typing
accident; deposit is the debiting side and panics - modelled as the
none result - when the balance of the entry is below the amount; withdraw
credits unconditionally. -/

namespace Bank

abbrev BankKey := AccountAddress × Ticker

abbrev BankState := List (BankKey × Int)

def bankGet : BankState → BankKey → Option Int
  | [], _ => none
  | (k2, v) :: rest, k => if k2 = k then some v else bankGet rest k

def bankSet : BankState → BankKey → Int → BankState
  | [], k, v => [(k, v)]
  | (k2, v2) :: rest, k, v =>
    if k2 = k then (k2, v) :: rest else (k2, v2) :: bankSet rest k v

/-- BankMock::get_balance. -/
def get_balance (s : BankState) (k : BankKey) : Option Int := bankGet s k

/-- BankMock::deposit: look up or create a zero entry; if the balance
is below the amount this is the fatal panic path, modelled as none;
otherwise subtract. -/
def deposit (s : BankState) (k : BankKey) (amount : Nat) : Option BankState :=
  let val := (bankGet s k).getD 0
  if val < (amount : Int) then none
  else some (bankSet s k (val - amount))

/-- BankMock::withdraw: look up or create a zero entry and add the
amount unconditionally. -/
def withdraw (s : BankState) (k : BankKey) (amount : Nat) : BankState :=
  let val := (bankGet s k).getD 0
  bankSet s k (val + amount)

inductive BankCall where
  | deposit (k : BankKey) (amount : Nat)
  | withdraw (k : BankKey) (amount : Nat)
deriving DecidableEq

/-- Runs a sequence of bank calls, stopping at the first fatal
deposit; the state reached so far stays observable and the flag
records whether the fatal path was taken. -/
def runBankCalls : List BankCall → BankState → BankState × Bool
  | [], s => (s, false)
  | .deposit k a :: rest, s =>
    match deposit s k a with
    | none => (s, true)
    | some s2 => runBankCalls rest s2
  | .withdraw k a :: rest, s => runBankCalls rest (withdraw s k a)

end Bank

/-! ## Config registry (types/src/on_chain_config/mod.rs) -/

/-- A ConfigID: a reserved system address and an identifier, drawn
from the fixed compile-time registry. -/
structure ConfigID where
  address : AccountAddress
  identifier : String

def stringBytes (s : String) : Blob := s.toList.map Char.toNat

/-- Modelled from the spec: AccessPath::resource_access_vec (mvm
crate, not under src/) canonically encodes the DiemConfig struct tag
parameterised by the config identifier; distinct identifiers give
distinct path bytes. -/
def resource_access_vec (name : String) : Blob :=
  1 :: (ulebEncode (stringBytes name).length ++ stringBytes name)

/-- ConfigID::access_path, via access_path_for_config. -/
def ConfigID.access_path (id : ConfigID) : AccessPath :=
  AccessPath.mk id.address (resource_access_vec id.identifier)

/-- OnChainConfig::fetch_config: read the bytes at the access
path of the ConfigID through the ConfigStorage capability and apply one round
of decode - the deserializer argument stands for the overridable
deserialize_into_config; absence and decode failure both give the
empty result, never an error. -/
def fetch_config {ε T : Type} (deserializeIntoConfig : Blob → Except ε T)
    (id : ConfigID) (storage : AccessPath → Option Blob) : Option T :=
  (storage id.access_path).bind (fun bytes => (deserializeIntoConfig bytes).toOption)

/-! ## Claim theorems -/

/-- C2: for every transaction on Mvm the returned VmResult reports
gas used as the budget minus the remaining gas, computed
unconditionally on success and on every failure; the status code is
the fixed EXECUTED code on success and on failure the major
status of the error with its sub-status passed through unchanged; both
publish_module and execute_script assemble their result through
handle_vm_result. -/
theorem c2_result_assembly :
    (∀ (remaining : Nat) (gasMeta : Gas) (result : Except VMErr TransactionEffects),
      (handle_vm_result remaining gasMeta result).1.gasUsed
        = gasMeta.maxGasAmount - remaining)
    ∧ (∀ (remaining : Nat) (gasMeta : Gas) (err : VMErr),
        (handle_vm_result remaining gasMeta (.error err)).1.statusCode = err.major
        ∧ (handle_vm_result remaining gasMeta (.error err)).1.subStatus = err.subStatus)
    ∧ (∀ (remaining : Nat) (gasMeta : Gas) (eff : TransactionEffects),
        (handle_tx_effects eff).2 = none →
        (handle_vm_result remaining gasMeta (.ok eff)).1.statusCode = .EXECUTED
        ∧ (handle_vm_result remaining gasMeta (.ok eff)).1.subStatus = none)
    ∧ (∀ (remaining : Nat) (gasMeta : Gas) (eff : TransactionEffects) (e : VMErr),
        (handle_tx_effects eff).2 = some e →
        (handle_vm_result remaining gasMeta (.ok eff)).1.statusCode = e.major
        ∧ (handle_vm_result remaining gasMeta (.ok eff)).1.subStatus = e.subStatus)
    ∧ (∀ (cost : Nat → Nat) (deser : Blob → Except VMErr CompiledModuleHeader)
        (sess : Blob → AccountAddress → Nat → Except VMErr TransactionEffects × Nat)
        (gas : Gas) (tx : ModuleTx), ∃ rem res,
        (publish_module cost deser sess gas tx).1 = (handle_vm_result rem gas res).1)
    ∧ (∀ (sessE : ScriptTx → ExecutionContext → Nat →
          Except VMErr TransactionEffects × Nat)
        (gas : Gas) (ctx : ExecutionContext) (tx : ScriptTx), ∃ rem res,
        (execute_script sessE gas ctx tx).1 = (handle_vm_result rem gas res).1) := by
  refine ⟨?_, ?_, ?_, ?_, ?_, ?_⟩
  · intro remaining gasMeta result
    cases result with
    | error err => rfl
    | ok eff =>
      cases hp : (handle_tx_effects eff).2 with
      | none => simp [handle_vm_result, hp]
      | some e => simp [handle_vm_result, hp]
  · intro remaining gasMeta err
    exact ⟨rfl, rfl⟩
  · intro remaining gasMeta eff hp
    constructor <;> simp [handle_vm_result, hp]
  · intro remaining gasMeta eff e hp
    constructor <;> simp [handle_vm_result, hp]
  · intro cost deser sess gas tx
    rw [publish_module]
    rcases hc : chargeIntrinsicGas cost tx.module.length gas.maxGasAmount with ⟨cr, g1⟩
    cases cr with
    | error e => exact ⟨g1, .error e, rfl⟩
    | ok u =>
      cases hd : deser tx.module with
      | error e => exact ⟨g1, .error e, rfl⟩
      | ok cm =>
        by_cases hs : tx.sender = cm.selfId.address
        · rcases hc2 : chargeIntrinsicGas cost tx.module.length g1 with ⟨cr2, g2⟩
          cases cr2 with
          | error e => exact ⟨g2, .error e, by simp [hs, hc2]⟩
          | ok u2 =>
            exact ⟨(sess tx.module tx.sender g2).2, (sess tx.module tx.sender g2).1,
              by simp [hs, hc2]⟩
        · exact ⟨g1, .error ⟨.MODULE_ADDRESS_DOES_NOT_MATCH_SENDER, none,
            .module cm.selfId⟩, by simp [hs]⟩
  · intro sessE gas ctx tx
    exact ⟨(sessE tx ctx gas.maxGasAmount).2, (sessE tx ctx gas.maxGasAmount).1, rfl⟩

theorem c2_result_assembly_witness :
    (handle_vm_result 3 (Gas.mk 10) (.error serializationErr)).1.gasUsed = 10 - 3
    ∧ (handle_vm_result 3 (Gas.mk 10) (.error serializationErr)).1.statusCode
        = serializationErr.major
    ∧ (handle_vm_result 3 (Gas.mk 10)
        (.ok (TransactionEffects.mk [] [] [] []))).1.statusCode = .EXECUTED := by
  refine ⟨c2_result_assembly.1 3 (Gas.mk 10) (.error serializationErr),
    (c2_result_assembly.2.1 3 (Gas.mk 10) serializationErr).1,
    (c2_result_assembly.2.2.1 3 (Gas.mk 10) (TransactionEffects.mk [] [] [] []) rfl).1⟩

/-- C8: fetch_config returns the empty result, never an error, both
when storage holds no bytes at the access path of the ConfigID and when the
stored bytes fail to decode; it returns the decoded config exactly
when bytes are present and one round of decode succeeds. -/
theorem c8_fetch_config {ε T : Type} (deser : Blob → Except ε T) (id : ConfigID)
    (storage : AccessPath → Option Blob) :
    (storage id.access_path = none → fetch_config deser id storage = none)
    ∧ (∀ bytes e, storage id.access_path = some bytes → deser bytes = .error e →
        fetch_config deser id storage = none)
    ∧ (∀ bytes t, storage id.access_path = some bytes → deser bytes = .ok t →
        fetch_config deser id storage = some t) := by
  refine ⟨?_, ?_, ?_⟩
  · intro h; simp [fetch_config, h]
  · intro bytes e h1 h2; simp [fetch_config, h1, h2, Except.toOption]
  · intro bytes t h1 h2; simp [fetch_config, h1, h2, Except.toOption]

theorem c8_fetch_config_witness :
    fetch_config (fromBytes Shape.u8) (ConfigID.mk [0] "Version") (fun _ => none) = none
    ∧ fetch_config (fromBytes Shape.u8) (ConfigID.mk [0] "Version")
        (fun _ => some []) = none := by
  refine ⟨(c8_fetch_config (fromBytes Shape.u8) (ConfigID.mk [0] "Version")
      (fun _ => none)).1 rfl, ?_⟩
  refine (c8_fetch_config (fromBytes Shape.u8) (ConfigID.mk [0] "Version")
      (fun _ => some [])).2.1 [] DErr.truncated rfl ?_
  rw [fromBytes, decodeValue]

/-- C7: publishing a module whose deserialized header declares an
address different from the sender returns the
MODULE_ADDRESS_DOES_NOT_MATCH_SENDER status produced from an error
tagged with the id of that module, gas used is positive because the first
intrinsic charge was taken, and no storage operation is performed. -/
theorem c7_address_mismatch (cost : Nat → Nat)
    (deser : Blob → Except VMErr CompiledModuleHeader)
    (sess : Blob → AccountAddress → Nat → Except VMErr TransactionEffects × Nat)
    (gas : Gas) (tx : ModuleTx) (cm : CompiledModuleHeader)
    (h1 : cost tx.module.length ≤ gas.maxGasAmount)
    (h2 : deser tx.module = .ok cm)
    (h3 : tx.sender ≠ cm.selfId.address)
    (h4 : 0 < cost tx.module.length) :
    (publish_module cost deser sess gas tx).1.statusCode
        = .MODULE_ADDRESS_DOES_NOT_MATCH_SENDER
    ∧ (publish_module cost deser sess gas tx).1.subStatus = none
    ∧ 0 < (publish_module cost deser sess gas tx).1.gasUsed
    ∧ (publish_module cost deser sess gas tx).2
        = [Ev.chargeIntrinsic tx.module.length true, Ev.deserializeModule]
    ∧ (publish_module cost deser sess gas tx).1
        = (handle_vm_result (gas.maxGasAmount - cost tx.module.length) gas
            (.error ⟨.MODULE_ADDRESS_DOES_NOT_MATCH_SENDER, none,
              .module cm.selfId⟩)).1 := by
  have hch : chargeIntrinsicGas cost tx.module.length gas.maxGasAmount
      = (.ok (), gas.maxGasAmount - cost tx.module.length) := by
    simp [chargeIntrinsicGas, h1]
  have hpub : publish_module cost deser sess gas tx
      = (⟨.MODULE_ADDRESS_DOES_NOT_MATCH_SENDER, none,
          gas.maxGasAmount - (gas.maxGasAmount - cost tx.module.length)⟩,
         [Ev.chargeIntrinsic tx.module.length true, Ev.deserializeModule]) := by
    simp [publish_module, hch, h2, h3, handle_vm_result]
  refine ⟨by rw [hpub], by rw [hpub], ?_, by rw [hpub],
    by rw [hpub]; simp [handle_vm_result]⟩
  rw [hpub]
  show 0 < gas.maxGasAmount - (gas.maxGasAmount - cost tx.module.length)
  omega

theorem c7_address_mismatch_witness :
    (publish_module (fun n => n + 1)
      (fun _ => .ok ⟨⟨[1], [0]⟩⟩)
      (fun _ _ g => (.ok ⟨[], [], [], []⟩, g))
      ⟨10⟩ ⟨[7], [2]⟩).1.statusCode = .MODULE_ADDRESS_DOES_NOT_MATCH_SENDER
    ∧ 0 < (publish_module (fun n => n + 1)
      (fun _ => .ok ⟨⟨[1], [0]⟩⟩)
      (fun _ _ g => (.ok ⟨[], [], [], []⟩, g))
      ⟨10⟩ ⟨[7], [2]⟩).1.gasUsed := by
  have h := c7_address_mismatch (fun n => n + 1)
    (fun _ => .ok ⟨⟨[1], [0]⟩⟩)
    (fun _ _ g => (.ok ⟨[], [], [], []⟩, g))
    ⟨10⟩ ⟨[7], [2]⟩ ⟨⟨[1], [0]⟩⟩
    (by decide) rfl (by decide) (by decide)
  exact ⟨h.1, h.2.2.1⟩

/-- Projection of the charge-attempt events of a publish trace. -/
def chargesOf (log : List Ev) : List (Nat × Bool) :=
  log.filterMap (fun e => match e with
    | .chargeIntrinsic s ok => some (s, ok)
    | _ => none)

theorem chargesOf_map_act (l : List Action) : chargesOf (l.map Ev.act) = [] := by
  induction l with
  | nil => rfl
  | cons a rest ih => simp [chargesOf, List.filterMap_cons]

/-- C1: in publish_module the intrinsic gas for the module blob length
is charged once before header deserialization and, when the sender
check succeeds, a second time for the same size before the interpreter
session opens, so exactly two charges happen on that path; if the
first charge fails the trace is the single failed charge attempt and
the module is never deserialized. -/
theorem c1_double_intrinsic_charge (cost : Nat → Nat)
    (deser : Blob → Except VMErr CompiledModuleHeader)
    (sess : Blob → AccountAddress → Nat → Except VMErr TransactionEffects × Nat)
    (gas : Gas) (tx : ModuleTx) :
    (¬ cost tx.module.length ≤ gas.maxGasAmount →
      (publish_module cost deser sess gas tx).2
        = [Ev.chargeIntrinsic tx.module.length false]
      ∧ Ev.deserializeModule ∉ (publish_module cost deser sess gas tx).2)
    ∧ (∀ cm, cost tx.module.length ≤ gas.maxGasAmount →
        deser tx.module = .ok cm → tx.sender = cm.selfId.address →
        cost tx.module.length ≤ gas.maxGasAmount - cost tx.module.length →
        (∃ acts : List Action, (publish_module cost deser sess gas tx).2
          = [Ev.chargeIntrinsic tx.module.length true, Ev.deserializeModule,
             Ev.chargeIntrinsic tx.module.length true, Ev.newSession]
            ++ acts.map Ev.act)
        ∧ chargesOf (publish_module cost deser sess gas tx).2
          = [(tx.module.length, true), (tx.module.length, true)]) := by
  constructor
  · intro h
    have hch : chargeIntrinsicGas cost tx.module.length gas.maxGasAmount
        = (.error ⟨.OUT_OF_GAS, none, .undefined⟩, 0) := by
      simp [chargeIntrinsicGas, h]
    have hpub : (publish_module cost deser sess gas tx).2
        = [Ev.chargeIntrinsic tx.module.length false] := by
      simp [publish_module, hch, handle_vm_result]
    rw [hpub]
    exact ⟨rfl, by simp⟩
  · intro cm hle hd hs hle2
    have hch : chargeIntrinsicGas cost tx.module.length gas.maxGasAmount
        = (.ok (), gas.maxGasAmount - cost tx.module.length) := by
      simp [chargeIntrinsicGas, hle]
    have hch2 : chargeIntrinsicGas cost tx.module.length
        (gas.maxGasAmount - cost tx.module.length)
        = (.ok (), gas.maxGasAmount - cost tx.module.length - cost tx.module.length) := by
      simp [chargeIntrinsicGas, hle2]
    have hpub : (publish_module cost deser sess gas tx).2
        = [Ev.chargeIntrinsic tx.module.length true, Ev.deserializeModule,
           Ev.chargeIntrinsic tx.module.length true, Ev.newSession]
          ++ ((handle_vm_result
                (sess tx.module tx.sender
                  (gas.maxGasAmount - cost tx.module.length - cost tx.module.length)).2
                gas
                (sess tx.module tx.sender
                  (gas.maxGasAmount - cost tx.module.length - cost tx.module.length)).1).2).map
              Ev.act := by
      simp [publish_module, hch, hd, hs, hch2]
    refine ⟨⟨(handle_vm_result
        (sess tx.module tx.sender
          (gas.maxGasAmount - cost tx.module.length - cost tx.module.length)).2
        gas
        (sess tx.module tx.sender
          (gas.maxGasAmount - cost tx.module.length - cost tx.module.length)).1).2,
      hpub⟩, ?_⟩
    rw [hpub]
    simp [chargesOf, List.filterMap_append, List.filterMap_cons]

theorem c1_double_intrinsic_charge_witness :
    (publish_module (fun _ => 100)
      (fun _ => .ok ⟨⟨[2], [0]⟩⟩)
      (fun _ _ g => (.ok ⟨[], [], [], []⟩, g))
      ⟨10⟩ ⟨[7], [2]⟩).2 = [Ev.chargeIntrinsic 1 false]
    ∧ chargesOf (publish_module (fun _ => 2)
      (fun _ => .ok ⟨⟨[2], [0]⟩⟩)
      (fun _ _ g => (.ok ⟨[], [], [], []⟩, g))
      ⟨10⟩ ⟨[7], [2]⟩).2 = [(1, true), (1, true)] := by
  refine ⟨(c1_double_intrinsic_charge (fun _ => 100)
      (fun _ => .ok ⟨⟨[2], [0]⟩⟩)
      (fun _ _ g => (.ok ⟨[], [], [], []⟩, g))
      ⟨10⟩ ⟨[7], [2]⟩).1 (by decide) |>.1, ?_⟩
  exact ((c1_double_intrinsic_charge (fun _ => 2)
      (fun _ => .ok ⟨⟨[2], [0]⟩⟩)
      (fun _ _ g => (.ok ⟨[], [], [], []⟩, g))
      ⟨10⟩ ⟨[7], [2]⟩).2 ⟨⟨[2], [0]⟩⟩ (by decide) rfl rfl (by decide)).2

/-- The storage action one resource entry of an address produces. -/
def resourceAction (addr : AccountAddress) (q : StructTag × Option (Shape × Value)) :
    Action :=
  match q.2 with
  | none => Action.delete (AccessPath.mk addr q.1.accessVector)
  | some lv => Action.insert (AccessPath.mk addr q.1.accessVector) (encodeValue lv.2)

/-- The EventHandler call one event produces. -/
def eventAction (ev : AccountAddress × TypeTag × Shape × Value × Option ModuleId) :
    Action :=
  Action.event ev.1 ev.2.1 (encodeValue ev.2.2.2.1) ev.2.2.2.2

theorem applyResourceVals_ok (addr : AccountAddress)
    (vals : List (StructTag × Option (Shape × Value)))
    (h : ∀ q ∈ vals, ∀ lay v, q.2 = some (lay, v) → wellShaped lay v = true) :
    applyResourceVals addr vals = (vals.map (resourceAction addr), none) := by
  induction vals with
  | nil => rfl
  | cons q rest ih =>
    obtain ⟨tag, opt⟩ := q
    have hrest := ih (fun q hq => h q (List.mem_cons_of_mem _ hq))
    cases opt with
    | none =>
      rw [applyResourceVals, hrest]
      simp [resourceAction]
    | some lv =>
      obtain ⟨lay, v⟩ := lv
      have hw := h (tag, some (lay, v)) (List.mem_cons_self _ _) lay v rfl
      rw [applyResourceVals]
      simp [simpleSerialize, hw, hrest, resourceAction]

theorem applyResources_ok
    (rs : List (AccountAddress × List (StructTag × Option (Shape × Value))))
    (h : ∀ p ∈ rs, ∀ q ∈ p.2, ∀ lay v, q.2 = some (lay, v) → wellShaped lay v = true) :
    applyResources rs = ((rs.map (fun p => p.2.map (resourceAction p.1))).flatten, none) := by
  induction rs with
  | nil => rfl
  | cons p rest ih =>
    obtain ⟨addr, vals⟩ := p
    have hvals := applyResourceVals_ok addr vals
      (fun q hq => h (addr, vals) (List.mem_cons_self _ _) q hq)
    have hrest := ih (fun p hp => h p (List.mem_cons_of_mem _ hp))
    rw [applyResources, hvals, hrest]
    simp

theorem applyEvents_ok
    (evs : List (AccountAddress × TypeTag × Shape × Value × Option ModuleId))
    (h : ∀ ev ∈ evs, wellShaped ev.2.2.1 ev.2.2.2.1 = true) :
    applyEvents evs = (evs.map eventAction, none) := by
  induction evs with
  | nil => rfl
  | cons ev rest ih =>
    obtain ⟨addr, tyTag, lay, v, caller⟩ := ev
    have hw := h (addr, tyTag, lay, v, caller) (List.mem_cons_self _ _)
    have hrest := ih (fun ev hev => h ev (List.mem_cons_of_mem _ hev))
    rw [applyEvents]
    simp only at hw
    simp [simpleSerialize, hw, hrest, eventAction]

theorem resourceAction_isStorage (addr : AccountAddress)
    (q : StructTag × Option (Shape × Value)) : (resourceAction addr q).isStorage = true := by
  rcases q with ⟨tag, _ | lv⟩ <;> rfl

/-- C3: applying a TransactionEffects whose values all serialize
performs exactly the N resource mutations then the M module inserts -
all storage mutations - then the K EventHandler calls in original
emission order, then the P bank calls in original order, the four
phases in that fixed order. -/
theorem c3_effect_commit (eff : TransactionEffects)
    (hres : ∀ p ∈ eff.resources, ∀ q ∈ p.2, ∀ lay v,
      q.2 = some (lay, v) → wellShaped lay v = true)
    (hev : ∀ ev ∈ eff.events, wellShaped ev.2.2.1 ev.2.2.2.1 = true) :
    handle_tx_effects eff =
      ((eff.resources.map (fun p => p.2.map (resourceAction p.1))).flatten
        ++ applyModules eff.modules
        ++ eff.events.map eventAction
        ++ applyWalletOps eff.wallet_ops, none)
    ∧ ((eff.resources.map (fun p => p.2.map (resourceAction p.1))).flatten).length
        = (eff.resources.map (fun p => p.2.length)).sum
    ∧ (applyModules eff.modules).length = eff.modules.length
    ∧ (∀ a ∈ (eff.resources.map (fun p => p.2.map (resourceAction p.1))).flatten
          ++ applyModules eff.modules, a.isStorage = true)
    ∧ (eff.events.map eventAction).length = eff.events.length
    ∧ (applyWalletOps eff.wallet_ops).length = eff.wallet_ops.length := by
  have hr := applyResources_ok eff.resources hres
  have he := applyEvents_ok eff.events hev
  refine ⟨?_, ?_, ?_, ?_, ?_, ?_⟩
  · rw [handle_tx_effects]
    simp [hr, he]
  · rw [List.length_flatten, List.map_map]
    refine congrArg List.sum (List.map_congr_left ?_)
    intro p hp
    simp
  · simp [applyModules]
  · intro a ha
    rcases List.mem_append.mp ha with hj | hm
    · obtain ⟨l, hl, hal⟩ := List.mem_flatten.mp hj
      obtain ⟨p, hp, rfl⟩ := List.mem_map.mp hl
      obtain ⟨q, hq, rfl⟩ := List.mem_map.mp hal
      exact resourceAction_isStorage p.1 q
    · obtain ⟨m, hm2, rfl⟩ := List.mem_map.mp hm
      rfl
  · simp
  · simp [applyWalletOps]

theorem c3_effect_commit_witness :
    (handle_tx_effects
      (TransactionEffects.mk
        [([0], [(StructTag.mk [5], some (Shape.u8, Value.u8 3))])]
        [(ModuleId.mk [0] [9], [1, 2])]
        [([1], [7], Shape.u8, Value.u8 4, none)]
        [(([1], "X"), BalanceOperation.deposit 2)])).2 = none := by
  have h := c3_effect_commit
    (TransactionEffects.mk
      [([0], [(StructTag.mk [5], some (Shape.u8, Value.u8 3))])]
      [(ModuleId.mk [0] [9], [1, 2])]
      [([1], [7], Shape.u8, Value.u8 4, none)]
      [(([1], "X"), BalanceOperation.deposit 2)])
    (by
      intro p hp q hq lay v hqe
      simp only [List.mem_singleton] at hp
      subst hp
      simp only [List.mem_singleton] at hq
      subst hq
      simp only [Option.some.injEq, Prod.mk.injEq] at hqe
      obtain ⟨h1, h2⟩ := hqe
      subst h1
      subst h2
      simp [wellShaped])
    (by
      intro ev hev
      simp only [List.mem_singleton] at hev
      subst hev
      simp [wellShaped])
  rw [h.1]

theorem applyResourceVals_err (addr : AccountAddress)
    (vals : List (StructTag × Option (Shape × Value))) (e : VMErr)
    (h : (applyResourceVals addr vals).2 = some e) : e = serializationErr := by
  induction vals with
  | nil => simp [applyResourceVals] at h
  | cons q rest ih =>
    obtain ⟨tag, opt⟩ := q
    cases opt with
    | none => rw [applyResourceVals] at h; exact ih h
    | some lv =>
      obtain ⟨lay, v⟩ := lv
      rw [applyResourceVals] at h
      cases hs : simpleSerialize v lay with
      | none => rw [hs] at h; simp at h; exact h.symm
      | some blob => rw [hs] at h; exact ih h

theorem applyResources_err
    (rs : List (AccountAddress × List (StructTag × Option (Shape × Value)))) (e : VMErr)
    (h : (applyResources rs).2 = some e) : e = serializationErr := by
  induction rs with
  | nil => simp [applyResources] at h
  | cons p rest ih =>
    obtain ⟨addr, vals⟩ := p
    rw [applyResources] at h
    cases hv : (applyResourceVals addr vals).2 with
    | some e2 =>
      rw [hv] at h
      simp at h
      subst h
      exact applyResourceVals_err addr vals e2 hv
    | none => rw [hv] at h; exact ih h

theorem applyEvents_err
    (evs : List (AccountAddress × TypeTag × Shape × Value × Option ModuleId)) (e : VMErr)
    (h : (applyEvents evs).2 = some e) : e = serializationErr := by
  induction evs with
  | nil => simp [applyEvents] at h
  | cons ev rest ih =>
    obtain ⟨addr, tyTag, lay, v, caller⟩ := ev
    rw [applyEvents] at h
    cases hs : simpleSerialize v lay with
    | none => rw [hs] at h; simp at h; exact h.symm
    | some msg => rw [hs] at h; exact ih h

theorem applyResourceVals_no_bank (addr : AccountAddress)
    (vals : List (StructTag × Option (Shape × Value))) :
    ∀ a ∈ (applyResourceVals addr vals).1, a.isBank = false := by
  induction vals with
  | nil => intro a ha; simp [applyResourceVals] at ha
  | cons q rest ih =>
    obtain ⟨tag, opt⟩ := q
    cases opt with
    | none =>
      intro a ha
      rw [applyResourceVals] at ha
      rcases List.mem_cons.mp ha with rfl | hmem
      · rfl
      · exact ih a hmem
    | some lv =>
      obtain ⟨lay, v⟩ := lv
      intro a ha
      rw [applyResourceVals] at ha
      cases hs : simpleSerialize v lay with
      | none => rw [hs] at ha; simp at ha
      | some blob =>
        rw [hs] at ha
        rcases List.mem_cons.mp ha with rfl | hmem
        · rfl
        · exact ih a hmem

theorem applyResources_no_bank
    (rs : List (AccountAddress × List (StructTag × Option (Shape × Value)))) :
    ∀ a ∈ (applyResources rs).1, a.isBank = false := by
  induction rs with
  | nil => intro a ha; simp [applyResources] at ha
  | cons p rest ih =>
    obtain ⟨addr, vals⟩ := p
    intro a ha
    rw [applyResources] at ha
    cases hv : (applyResourceVals addr vals).2 with
    | some e =>
      rw [hv] at ha
      exact applyResourceVals_no_bank addr vals a ha
    | none =>
      rw [hv] at ha
      rcases List.mem_append.mp ha with h1 | h2
      · exact applyResourceVals_no_bank addr vals a h1
      · exact ih a h2

theorem applyModules_no_bank (ms : List (ModuleId × Blob)) :
    ∀ a ∈ applyModules ms, a.isBank = false := by
  intro a ha
  obtain ⟨m, hm, rfl⟩ := List.mem_map.mp ha
  rfl

theorem applyEvents_no_bank
    (evs : List (AccountAddress × TypeTag × Shape × Value × Option ModuleId)) :
    ∀ a ∈ (applyEvents evs).1, a.isBank = false := by
  induction evs with
  | nil => intro a ha; simp [applyEvents] at ha
  | cons ev rest ih =>
    obtain ⟨addr, tyTag, lay, v, caller⟩ := ev
    intro a ha
    rw [applyEvents] at ha
    cases hs : simpleSerialize v lay with
    | none => rw [hs] at ha; simp at ha
    | some msg =>
      rw [hs] at ha
      rcases List.mem_cons.mp ha with rfl | hmem
      · rfl
      · exact ih a hmem

/-- C6: if encoding a resource value or an event payload under its own
layout fails during effect application, the error is the fatal
UNKNOWN_INVARIANT_VIOLATION_ERROR and the transaction result carries
that status; the storage mutations already performed are kept in the
trace - when the resource phase succeeded the full resource and module
mutations are - and no balance operation of the effect set is
performed. -/
theorem c6_serialization_fatal (eff : TransactionEffects)
    (hfail : (applyResources eff.resources).2.isSome
      ∨ (applyEvents eff.events).2.isSome) :
    (handle_tx_effects eff).2 = some serializationErr
    ∧ serializationErr.major = StatusCode.UNKNOWN_INVARIANT_VIOLATION_ERROR
    ∧ (∀ a ∈ (handle_tx_effects eff).1, a.isBank = false)
    ∧ ((applyResources eff.resources).2 = none →
        (handle_tx_effects eff).1
          = (applyResources eff.resources).1 ++ applyModules eff.modules
            ++ (applyEvents eff.events).1)
    ∧ (∀ (remaining : Nat) (gasMeta : Gas),
        (handle_vm_result remaining gasMeta (.ok eff)).1.statusCode
          = StatusCode.UNKNOWN_INVARIANT_VIOLATION_ERROR) := by
  have hmain : (handle_tx_effects eff).2 = some serializationErr
      ∧ (∀ a ∈ (handle_tx_effects eff).1, a.isBank = false)
      ∧ ((applyResources eff.resources).2 = none →
          (handle_tx_effects eff).1
            = (applyResources eff.resources).1 ++ applyModules eff.modules
              ++ (applyEvents eff.events).1) := by
    cases hr : (applyResources eff.resources).2 with
    | some e =>
      have he := applyResources_err eff.resources e hr
      subst he
      refine ⟨by rw [handle_tx_effects]; simp [hr], ?_, ?_⟩
      · intro a ha
        rw [handle_tx_effects] at ha
        simp only [hr] at ha
        exact applyResources_no_bank eff.resources a ha
      · intro hnone; exact absurd hnone (by simp)
    | none =>
      have hev : (applyEvents eff.events).2.isSome := by
        rcases hfail with h1 | h2
        · rw [hr] at h1; exact absurd h1 (by simp)
        · exact h2
      obtain ⟨e2, he2⟩ := Option.isSome_iff_exists.mp hev
      have he := applyEvents_err eff.events e2 he2
      subst he
      refine ⟨by rw [handle_tx_effects]; simp [hr, he2], ?_, ?_⟩
      · intro a ha
        rw [handle_tx_effects] at ha
        simp only [hr, he2] at ha
        rcases List.mem_append.mp ha with h12 | h3
        · rcases List.mem_append.mp h12 with h1 | h2
          · exact applyResources_no_bank eff.resources a h1
          · exact applyModules_no_bank eff.modules a h2
        · exact applyEvents_no_bank eff.events a h3
      · intro hnone
        rw [handle_tx_effects]
        simp [hr, he2]
  refine ⟨hmain.1, rfl, hmain.2.1, hmain.2.2, ?_⟩
  intro remaining gasMeta
  simp [handle_vm_result, hmain.1, serializationErr]

theorem c6_serialization_fatal_witness :
    (handle_tx_effects
      (TransactionEffects.mk
        [([0], [(StructTag.mk [5], some (Shape.u8, Value.noneV))])]
        [(ModuleId.mk [0] [9], [1, 2])]
        []
        [(([1], "X"), BalanceOperation.deposit 2)])).2 = some serializationErr
    ∧ (∀ a ∈ (handle_tx_effects
        (TransactionEffects.mk
          [([0], [(StructTag.mk [5], some (Shape.u8, Value.noneV))])]
          [(ModuleId.mk [0] [9], [1, 2])]
          []
          [(([1], "X"), BalanceOperation.deposit 2)])).1, a.isBank = false) := by
  have hfail : (applyResources
      [([0], [(StructTag.mk [5], some (Shape.u8, Value.noneV))])]).2.isSome
      ∨ (applyEvents
          ([] : List (AccountAddress × TypeTag × Shape × Value × Option ModuleId))).2.isSome := by
    left
    simp [applyResources, applyResourceVals, simpleSerialize, wellShaped]
  have h := c6_serialization_fatal
    (TransactionEffects.mk
      [([0], [(StructTag.mk [5], some (Shape.u8, Value.noneV))])]
      [(ModuleId.mk [0] [9], [1, 2])]
      []
      [(([1], "X"), BalanceOperation.deposit 2)])
    hfail
  exact ⟨h.1, h.2.2.1⟩

theorem dvmApplyResourceVals_eq (addr : AccountAddress)
    (vals : List (StructTag × Option (Shape × Value))) :
    dvmApplyResourceVals addr vals = applyResourceVals addr vals := by
  induction vals with
  | nil => rfl
  | cons q rest ih =>
    obtain ⟨tag, opt⟩ := q
    cases opt with
    | none => rw [dvmApplyResourceVals, applyResourceVals, ih]
    | some lv =>
      obtain ⟨lay, v⟩ := lv
      rw [dvmApplyResourceVals, applyResourceVals, ih]

theorem dvmApplyResources_eq
    (rs : List (AccountAddress × List (StructTag × Option (Shape × Value)))) :
    dvmApplyResources rs = applyResources rs := by
  induction rs with
  | nil => rfl
  | cons p rest ih =>
    obtain ⟨addr, vals⟩ := p
    rw [dvmApplyResources, applyResources, dvmApplyResourceVals_eq, ih]

theorem dvmApplyModules_eq (ms : List (ModuleId × Blob)) :
    dvmApplyModules ms = applyModules ms := rfl

theorem applyResourceVals_all_storage (addr : AccountAddress)
    (vals : List (StructTag × Option (Shape × Value))) :
    ∀ a ∈ (applyResourceVals addr vals).1, a.isStorage = true := by
  induction vals with
  | nil => intro a ha; simp [applyResourceVals] at ha
  | cons q rest ih =>
    obtain ⟨tag, opt⟩ := q
    cases opt with
    | none =>
      intro a ha
      rw [applyResourceVals] at ha
      rcases List.mem_cons.mp ha with rfl | hmem
      · rfl
      · exact ih a hmem
    | some lv =>
      obtain ⟨lay, v⟩ := lv
      intro a ha
      rw [applyResourceVals] at ha
      cases hs : simpleSerialize v lay with
      | none => rw [hs] at ha; simp at ha
      | some blob =>
        rw [hs] at ha
        rcases List.mem_cons.mp ha with rfl | hmem
        · rfl
        · exact ih a hmem

theorem applyResources_all_storage
    (rs : List (AccountAddress × List (StructTag × Option (Shape × Value)))) :
    ∀ a ∈ (applyResources rs).1, a.isStorage = true := by
  induction rs with
  | nil => intro a ha; simp [applyResources] at ha
  | cons p rest ih =>
    obtain ⟨addr, vals⟩ := p
    intro a ha
    rw [applyResources] at ha
    cases hv : (applyResourceVals addr vals).2 with
    | some e => rw [hv] at ha; exact applyResourceVals_all_storage addr vals a ha
    | none =>
      rw [hv] at ha
      rcases List.mem_append.mp ha with h1 | h2
      · exact applyResourceVals_all_storage addr vals a h1
      · exact ih a h2

theorem applyModules_all_storage (ms : List (ModuleId × Blob)) :
    ∀ a ∈ applyModules ms, a.isStorage = true := by
  intro a ha
  obtain ⟨m, hm, rfl⟩ := List.mem_map.mp ha
  rfl

theorem applyEvents_no_storage
    (evs : List (AccountAddress × TypeTag × Shape × Value × Option ModuleId)) :
    ∀ a ∈ (applyEvents evs).1, a.isStorage = false := by
  induction evs with
  | nil => intro a ha; simp [applyEvents] at ha
  | cons ev rest ih =>
    obtain ⟨addr, tyTag, lay, v, caller⟩ := ev
    intro a ha
    rw [applyEvents] at ha
    cases hs : simpleSerialize v lay with
    | none => rw [hs] at ha; simp at ha
    | some msg =>
      rw [hs] at ha
      rcases List.mem_cons.mp ha with rfl | hmem
      · rfl
      · exact ih a hmem

theorem applyWalletOps_no_storage (ops : List (WalletId × BalanceOperation)) :
    ∀ a ∈ applyWalletOps ops, a.isStorage = false := by
  intro a ha
  obtain ⟨p, hp, rfl⟩ := List.mem_map.mp ha
  cases p.2 <;> rfl

/-- C10: the storage mutations performed by Dvm store_tx_effects are
identical - same keys, same values, same order - to the storage
mutations of the resource and module phases of Mvm handle_tx_effects,
which are exactly the storage actions of the full Mvm trace; a fatal
encoding error in those phases is the same
UNKNOWN_INVARIANT_VIOLATION_ERROR in both. -/
theorem c10_dvm_refines_mvm (eff : TransactionEffects) :
    (store_tx_effects eff).1
      = (handle_tx_effects eff).1.filter (fun a => a.isStorage)
    ∧ ((store_tx_effects eff).2 = none → (applyResources eff.resources).2 = none)
    ∧ (∀ e, (store_tx_effects eff).2 = some e →
        e = serializationErr ∧ (handle_tx_effects eff).2 = some e) := by
  have hstore : store_tx_effects eff =
      (let r := applyResources eff.resources
       match r.2 with
       | some e => (r.1, some e)
       | none => (r.1 ++ applyModules eff.modules, none)) := by
    rw [store_tx_effects, dvmApplyResources_eq, dvmApplyModules_eq]
  have hfr : (applyResources eff.resources).1.filter (fun a => a.isStorage)
      = (applyResources eff.resources).1 :=
    List.filter_eq_self.mpr (applyResources_all_storage eff.resources)
  have hfm : (applyModules eff.modules).filter (fun a => a.isStorage)
      = applyModules eff.modules :=
    List.filter_eq_self.mpr (applyModules_all_storage eff.modules)
  have hfe : (applyEvents eff.events).1.filter (fun a => a.isStorage) = [] := by
    rw [List.filter_eq_nil_iff]
    intro a ha
    simp [applyEvents_no_storage eff.events a ha]
  have hfw : (applyWalletOps eff.wallet_ops).filter (fun a => a.isStorage) = [] := by
    rw [List.filter_eq_nil_iff]
    intro a ha
    simp [applyWalletOps_no_storage eff.wallet_ops a ha]
  cases hr : (applyResources eff.resources).2 with
  | some e =>
    have he := applyResources_err eff.resources e hr
    refine ⟨?_, ?_, ?_⟩
    · rw [hstore, handle_tx_effects]
      simp only [hr]
      exact hfr.symm
    · intro hn
      rw [hstore] at hn
      simp only [hr] at hn
      exact absurd hn (by simp)
    · intro e2 he2
      rw [hstore] at he2
      simp only [hr] at he2
      simp only [Option.some.injEq] at he2
      subst he2
      refine ⟨he, ?_⟩
      rw [handle_tx_effects]
      simp only [hr]
  | none =>
    refine ⟨?_, fun _ => rfl, ?_⟩
    · rw [hstore, handle_tx_effects]
      simp only [hr]
      cases hev : (applyEvents eff.events).2 with
      | some e2 =>
        simp only [hev, List.filter_append]
        rw [hfr, hfm, hfe, List.append_nil]
      | none =>
        simp only [hev, List.filter_append]
        rw [hfr, hfm, hfe, hfw, List.append_nil, List.append_nil]
    · intro e2 he2
      rw [hstore] at he2
      simp only [hr] at he2
      exact absurd he2 (by simp)

theorem c10_dvm_refines_mvm_witness :
    (store_tx_effects
      (TransactionEffects.mk
        [([0], [(StructTag.mk [5], none)])]
        [(ModuleId.mk [0] [9], [1, 2])]
        [([1], [7], Shape.u8, Value.u8 4, none)]
        [(([1], "X"), BalanceOperation.deposit 2)])).1
    = (handle_tx_effects
      (TransactionEffects.mk
        [([0], [(StructTag.mk [5], none)])]
        [(ModuleId.mk [0] [9], [1, 2])]
        [([1], [7], Shape.u8, Value.u8 4, none)]
        [(([1], "X"), BalanceOperation.deposit 2)])).1.filter
        (fun a => a.isStorage) :=
  (c10_dvm_refines_mvm
    (TransactionEffects.mk
      [([0], [(StructTag.mk [5], none)])]
      [(ModuleId.mk [0] [9], [1, 2])]
      [([1], [7], Shape.u8, Value.u8 4, none)]
      [(([1], "X"), BalanceOperation.deposit 2)])).1

namespace Bank

theorem bankGet_mem (s : BankState) (k : BankKey) (v : Int)
    (h : bankGet s k = some v) : (k, v) ∈ s := by
  induction s with
  | nil => simp [bankGet] at h
  | cons kv rest ih =>
    obtain ⟨k2, v2⟩ := kv
    rw [bankGet] at h
    by_cases hk : k2 = k
    · rw [if_pos hk] at h
      simp only [Option.some.injEq] at h
      subst hk; subst h
      exact List.mem_cons_self _ _
    · rw [if_neg hk] at h
      exact List.mem_cons_of_mem _ (ih h)

theorem mem_bankSet (s : BankState) (k : BankKey) (v : Int) (kv : BankKey × Int)
    (h : kv ∈ bankSet s k v) : kv = (k, v) ∨ kv ∈ s := by
  induction s with
  | nil =>
    rw [bankSet] at h
    simp at h
    exact Or.inl h
  | cons kv2 rest ih =>
    obtain ⟨k2, v2⟩ := kv2
    rw [bankSet] at h
    by_cases hk : k2 = k
    · rw [if_pos hk] at h
      subst hk
      rcases List.mem_cons.mp h with rfl | hmem
      · exact Or.inl rfl
      · exact Or.inr (List.mem_cons_of_mem _ hmem)
    · rw [if_neg hk] at h
      rcases List.mem_cons.mp h with rfl | hmem
      · exact Or.inr (List.mem_cons_self _ _)
      · rcases ih hmem with h1 | h2
        · exact Or.inl h1
        · exact Or.inr (List.mem_cons_of_mem _ h2)

theorem bankGet_bankSet (s : BankState) (k : BankKey) (v : Int) :
    bankGet (bankSet s k v) k = some v := by
  induction s with
  | nil => simp [bankSet, bankGet]
  | cons kv rest ih =>
    obtain ⟨k2, v2⟩ := kv
    rw [bankSet]
    by_cases hk : k2 = k
    · rw [if_pos hk, bankGet, if_pos hk]
    · rw [if_neg hk, bankGet, if_neg hk]
      exact ih

theorem nonneg_getD (s : BankState) (k : BankKey) (h : ∀ kv ∈ s, 0 ≤ kv.2) :
    0 ≤ (bankGet s k).getD 0 := by
  cases hg : bankGet s k with
  | none => simp
  | some v => simpa using h (k, v) (bankGet_mem s k v hg)

theorem deposit_nonneg (s : BankState) (k : BankKey) (a : Nat) (s2 : BankState)
    (h0 : ∀ kv ∈ s, 0 ≤ kv.2) (h : deposit s k a = some s2) :
    ∀ kv ∈ s2, 0 ≤ kv.2 := by
  rw [deposit] at h
  by_cases hlt : (bankGet s k).getD 0 < (a : Int)
  · simp only [hlt, if_true] at h
    exact absurd h (by simp)
  · simp only [hlt, if_false] at h
    simp only [Option.some.injEq] at h
    subst h
    intro kv hkv
    rcases mem_bankSet _ _ _ _ hkv with rfl | hmem
    · simp only
      omega
    · exact h0 kv hmem

theorem withdraw_nonneg (s : BankState) (k : BankKey) (a : Nat)
    (h0 : ∀ kv ∈ s, 0 ≤ kv.2) : ∀ kv ∈ withdraw s k a, 0 ≤ kv.2 := by
  rw [withdraw]
  intro kv hkv
  rcases mem_bankSet _ _ _ _ hkv with rfl | hmem
  · have := nonneg_getD s k h0
    simp only
    omega
  · exact h0 kv hmem

theorem runBankCalls_nonneg (calls : List BankCall) (s : BankState)
    (h0 : ∀ kv ∈ s, 0 ≤ kv.2) :
    ∀ kv ∈ (runBankCalls calls s).1, 0 ≤ kv.2 := by
  induction calls generalizing s with
  | nil => exact h0
  | cons c rest ih =>
    cases c with
    | deposit k a =>
      rw [runBankCalls]
      cases hd : deposit s k a with
      | none => exact h0
      | some s2 => exact ih s2 (deposit_nonneg s k a s2 h0 hd)
    | withdraw k a =>
      rw [runBankCalls]
      exact ih _ (withdraw_nonneg s k a h0)

theorem runBankCalls_append (xs ys : List BankCall) (s : BankState)
    (h : (runBankCalls xs s).2 = false) :
    runBankCalls (xs ++ ys) s = runBankCalls ys (runBankCalls xs s).1 := by
  induction xs generalizing s with
  | nil => rfl
  | cons c rest ih =>
    cases c with
    | deposit k a =>
      rw [runBankCalls] at h ⊢
      cases hd : deposit s k a with
      | none => rw [hd] at h; exact absurd h (by simp)
      | some s2 =>
        rw [hd] at h
        rw [List.cons_append, runBankCalls, hd]
        exact ih s2 h
    | withdraw k a =>
      rw [runBankCalls] at h
      rw [List.cons_append, runBankCalls]
      exact ih _ h

end Bank

/-- C5: starting from non-negative balances no sequence of
deposit/withdraw calls ever leaves a balance negative; deposit takes
the fatal path exactly when the entry balance (zero for a fresh entry)
is below the amount, rather than clamping; withdraw adds
unconditionally; and the state reached before a later fatal deposit,
including earlier successful deposits, stays observable. -/
theorem c5_bank_invariant (s0 : Bank.BankState) (calls : List Bank.BankCall)
    (h0 : ∀ kv ∈ s0, 0 ≤ kv.2) :
    (∀ kv ∈ (Bank.runBankCalls calls s0).1, 0 ≤ kv.2)
    ∧ (∀ (s : Bank.BankState) (k : Bank.BankKey) (a : Nat),
        Bank.deposit s k a = none ↔ (Bank.bankGet s k).getD 0 < (a : Int))
    ∧ (∀ (s : Bank.BankState) (k : Bank.BankKey) (a : Nat),
        Bank.bankGet (Bank.withdraw s k a) k
          = some ((Bank.bankGet s k).getD 0 + (a : Int)))
    ∧ (∀ (pre rest : List Bank.BankCall) (k : Bank.BankKey) (a : Nat)
        (s1 : Bank.BankState),
        Bank.runBankCalls pre s0 = (s1, false) → Bank.deposit s1 k a = none →
        Bank.runBankCalls (pre ++ Bank.BankCall.deposit k a :: rest) s0
          = (s1, true)) := by
  refine ⟨Bank.runBankCalls_nonneg calls s0 h0, ?_, ?_, ?_⟩
  · intro s k a
    by_cases hlt : (Bank.bankGet s k).getD 0 < (a : Int)
    · simp [Bank.deposit, hlt]
    · simp [Bank.deposit, hlt]
  · intro s k a
    rw [Bank.withdraw, Bank.bankGet_bankSet]
  · intro pre rest k a s1 hpre hdep
    have happ := Bank.runBankCalls_append pre (Bank.BankCall.deposit k a :: rest) s0
      (by rw [hpre])
    rw [happ, hpre]
    rw [Bank.runBankCalls, hdep]

theorem c5_bank_invariant_witness :
    (∀ kv ∈ (Bank.runBankCalls
        [Bank.BankCall.deposit ([0], "X") 10, Bank.BankCall.deposit ([0], "X") 10]
        [((([0] : AccountAddress), "X"), (15 : Int))]).1, 0 ≤ kv.2)
    ∧ Bank.runBankCalls
        [Bank.BankCall.deposit ([0], "X") 10, Bank.BankCall.deposit ([0], "X") 10]
        [((([0] : AccountAddress), "X"), (15 : Int))]
      = ([((([0] : AccountAddress), "X"), (5 : Int))], true) := by
  refine ⟨(c5_bank_invariant
    [((([0] : AccountAddress), "X"), (15 : Int))]
    [Bank.BankCall.deposit ([0], "X") 10, Bank.BankCall.deposit ([0], "X") 10]
    (by decide)).1, ?_⟩
  decide

/-! ## Commit order (claim C4)

The canonical byte order on the structured storage keys: account
address bytes first, path bytes on a tie; both compared
lexicographically byte by byte. -/

abbrev blobLt : Blob → Blob → Prop := List.Lex (fun a b => a < b)

abbrev apLt (k1 k2 : AccessPath) : Prop :=
  Prod.Lex blobLt blobLt (k1.address, k1.path) (k2.address, k2.path)

def storageKey : Action → Option AccessPath
  | .insert k _ => some k
  | .delete k => some k
  | _ => none

/-- The sequence of storage keys a trace mutates, in order. -/
def storageKeys (acts : List Action) : List AccessPath := acts.filterMap storageKey

theorem storageKeys_cons_insert (k : AccessPath) (v : Blob) (l : List Action) :
    storageKeys (Action.insert k v :: l) = k :: storageKeys l := by
  simp [storageKeys, List.filterMap_cons, storageKey]

theorem storageKeys_cons_delete (k : AccessPath) (l : List Action) :
    storageKeys (Action.delete k :: l) = k :: storageKeys l := by
  simp [storageKeys, List.filterMap_cons, storageKey]

theorem storageKeys_append (l1 l2 : List Action) :
    storageKeys (l1 ++ l2) = storageKeys l1 ++ storageKeys l2 :=
  List.filterMap_append l1 l2 storageKey

theorem storageKeys_applyResourceVals (addr : AccountAddress)
    (vals : List (StructTag × Option (Shape × Value))) :
    List.Sublist (storageKeys (applyResourceVals addr vals).1)
      (vals.map (fun q => AccessPath.mk addr q.1.accessVector)) := by
  induction vals with
  | nil => simp [applyResourceVals, storageKeys]
  | cons q rest ih =>
    obtain ⟨tag, opt⟩ := q
    cases opt with
    | none =>
      rw [applyResourceVals]
      rw [storageKeys_cons_delete, List.map_cons]
      exact List.Sublist.cons₂ _ ih
    | some lv =>
      obtain ⟨lay, v⟩ := lv
      rw [applyResourceVals]
      cases hs : simpleSerialize v lay with
      | none => exact List.nil_sublist _
      | some blob =>
        rw [storageKeys_cons_insert, List.map_cons]
        exact List.Sublist.cons₂ _ ih

theorem storageKeys_applyResources
    (rs : List (AccountAddress × List (StructTag × Option (Shape × Value)))) :
    List.Sublist (storageKeys (applyResources rs).1)
      ((rs.map (fun p => p.2.map
        (fun q => AccessPath.mk p.1 q.1.accessVector))).flatten) := by
  induction rs with
  | nil => simp [applyResources, storageKeys]
  | cons p rest ih =>
    obtain ⟨addr, vals⟩ := p
    rw [applyResources]
    simp only [List.map_cons, List.flatten_cons]
    cases hv : (applyResourceVals addr vals).2 with
    | some e =>
      exact (storageKeys_applyResourceVals addr vals).trans
        (List.sublist_append_left _ _)
    | none =>
      rw [storageKeys_append]
      exact List.Sublist.append (storageKeys_applyResourceVals addr vals) ih

theorem pairwise_resource_keys
    (rs : List (AccountAddress × List (StructTag × Option (Shape × Value))))
    (h1 : rs.Pairwise (fun p q => blobLt p.1 q.1))
    (h2 : ∀ p ∈ rs, p.2.Pairwise
        (fun x y => blobLt x.1.accessVector y.1.accessVector)) :
    ((rs.map (fun p => p.2.map
        (fun q => AccessPath.mk p.1 q.1.accessVector))).flatten).Pairwise apLt := by
  rw [List.pairwise_flatten]
  constructor
  · intro l hl
    obtain ⟨p, hp, rfl⟩ := List.mem_map.mp hl
    rw [List.pairwise_map]
    refine (h2 p hp).imp ?_
    intro x y hxy
    exact Prod.Lex.right _ hxy
  · rw [List.pairwise_map]
    refine h1.imp ?_
    intro p q hpq x hx y hy
    obtain ⟨qx, hqx, rfl⟩ := List.mem_map.mp hx
    obtain ⟨qy, hqy, rfl⟩ := List.mem_map.mp hy
    exact Prod.Lex.left _ _ hpq

theorem storageKeys_applyModules (ms : List (ModuleId × Blob)) :
    storageKeys (applyModules ms)
      = ms.map (fun m => AccessPath.mk m.1.address m.1.accessVector) := by
  induction ms with
  | nil => rfl
  | cons m rest ih =>
    show storageKeys (Action.insert _ _ :: applyModules rest) = _
    rw [storageKeys_cons_insert, ih, List.map_cons]

/-- C4: when the resource collection is sorted by address bytes with
each inner collection sorted by access-vector bytes, and the module
collection is sorted by key bytes - the order a BTreeMap-backed
effect set delivers - the storage-key sequences emitted by the
resource phase and by the module phase are strictly sorted in the
canonical byte order on keys, so any two runs over the same
TransactionEffects produce the identical mutation sequence (the
applier is a pure function of the effect set). -/
theorem c4_sorted_commit_order (eff : TransactionEffects)
    (h1 : eff.resources.Pairwise (fun p q => blobLt p.1 q.1))
    (h2 : ∀ p ∈ eff.resources,
        p.2.Pairwise (fun x y => blobLt x.1.accessVector y.1.accessVector))
    (h3 : eff.modules.Pairwise (fun m n =>
        apLt (AccessPath.mk m.1.address m.1.accessVector)
          (AccessPath.mk n.1.address n.1.accessVector))) :
    (storageKeys (applyResources eff.resources).1).Pairwise apLt
    ∧ (storageKeys (applyModules eff.modules)).Pairwise apLt := by
  constructor
  · exact (pairwise_resource_keys eff.resources h1 h2).sublist
      (storageKeys_applyResources eff.resources)
  · rw [storageKeys_applyModules, List.pairwise_map]
    exact h3

theorem c4_sorted_commit_order_witness :
    (storageKeys (applyResources
      [(([0] : AccountAddress), [(StructTag.mk [1], none), (StructTag.mk [2], none)]),
       (([1] : AccountAddress), [(StructTag.mk [0], none)])]).1).Pairwise apLt
    ∧ (storageKeys (applyModules
      [(ModuleId.mk [0] [3], [9]), (ModuleId.mk [1] [0], [8])])).Pairwise apLt := by
  refine c4_sorted_commit_order
    (TransactionEffects.mk
      [(([0] : AccountAddress), [(StructTag.mk [1], none), (StructTag.mk [2], none)]),
       (([1] : AccountAddress), [(StructTag.mk [0], none)])]
      [(ModuleId.mk [0] [3], [9]), (ModuleId.mk [1] [0], [8])]
      [] [])
    (by decide) ?_ (by decide)
  intro p hp
  simp only [List.mem_cons, List.mem_singleton] at hp
  rcases hp with rfl | rfl | h
  · decide
  · decide
  · simp at h

end SpMoveVm
